import Mathlib

/-!
Verification of the mix-splitter core (splitter.py).

A shallow embedding of the track-reconciliation and segmentation pipeline:
`merge_duplicate_tracks`, `check_tracks` (the processed-title ledger),
`crop_thumbnail` (branch selection and crop geometry), the title/artist
derivation of `split_track` and `get_youtube_track`, the scoring and
threshold of the fallback resolver, and the orchestrator `split`.

Conventions of the embedding:
* Python `int` values (track start and duration, exit codes) are `Int`;
  image dimensions are `Nat`; the float arithmetic of the crop geometry
  and the similarity scores is modelled exactly over `Rat`.
* Python `str.strip` is `pyStrip` (drop leading and trailing whitespace);
  `os.path.join` of a directory and a filename on a POSIX system is
  concatenation with a `/` in between.
* Stateful filesystem behaviour (the `songs.txt` ledger and the files of
  the output directory) is explicit state passing over `FsState`.
-/

namespace MixSplitter

/-- Type `Track` from track.py: title, start offset and duration in
seconds. -/
structure Track where
  title : String
  start : Int
  duration : Int
deriving DecidableEq, Repr

/-- Python `str.strip()`: remove leading and trailing whitespace. -/
def pyStrip (s : String) : String :=
  ⟨((s.data.dropWhile Char.isWhitespace).reverse.dropWhile Char.isWhitespace).reverse⟩

/-- One iteration of the merging loop of `merge_duplicate_tracks`
(splitter.py lines 40-51).  The Python loop builds an insertion-ordered
dict keyed by title, rendered here as an association list whose titles are
unique (as dict keys are); on a duplicate title it stores a new track with
the minimum of the two starts and the duration of the incoming track. -/
def mergeStep (m : List Track) (t : Track) : List Track :=
  if t.title ∈ m.map Track.title then
    m.map fun u =>
      if u.title = t.title then
        { title := t.title, start := min u.start t.start, duration := t.duration }
      else u
  else m ++ [t]

/-- The duplicate-merging phase of `merge_duplicate_tracks`: the whole
loop, read back in insertion order. -/
def mergeDups (ts : List Track) : List Track := ts.foldl mergeStep []

/-- Substitution of the regular expression `^\d+\.?\s*` by the empty
string (splitter.py lines 57-59): strip a leading run of digits, an
optional period, and any following whitespace; when the title does not
start with a digit the pattern does not match and the title is
unchanged. -/
def stripLeadingOrdinal (s : String) : String :=
  if (s.data.takeWhile Char.isDigit) = [] then s
  else
    match s.data.dropWhile Char.isDigit with
    | '.' :: r => ⟨r.dropWhile Char.isWhitespace⟩
    | r => ⟨r.dropWhile Char.isWhitespace⟩

/-- Function `merge_duplicate_tracks` (splitter.py lines 28-61): merge
duplicate titles, then strip the leading ordinal from every merged
title. -/
def mergeDuplicateTracks (ts : List Track) : List Track :=
  (mergeDups ts).map fun t => { t with title := stripLeadingOrdinal t.title }

/-- Specification-side view: the occurrences of title `τ` in the input
list, in order. -/
def occs (ts : List Track) (τ : String) : List Track :=
  ts.filter fun t => t.title == τ

/-- Specification-side view: minimum `start` over a list of tracks (`0`
for the empty list, which never arises for an occurrence list of a
produced title). -/
def minStart : List Track → Int
  | [] => 0
  | t :: ts => ts.foldl (fun a u => min a u.start) t.start

/-- Specification-side view: `duration` of the last track of the list
(`0` for the empty list). -/
def lastDur : List Track → Int
  | [] => 0
  | [t] => t.duration
  | _ :: u :: ts => lastDur (u :: ts)

/-- First-seen-order deduplication of a list of strings, skipping the
ones already in `seen`. -/
def firstSeen (seen : List String) : List String → List String
  | [] => []
  | x :: xs => if x ∈ seen then firstSeen seen xs else x :: firstSeen (x :: seen) xs

/-- Locate the first occurrence of `sep` in a character list, returning
the text before it and the text after it. -/
def findSplit (sep : List Char) : List Char → Option (List Char × List Char)
  | [] => if sep.isPrefixOf ([] : List Char) then some ([], []) else none
  | c :: cs =>
      if sep.isPrefixOf (c :: cs) then some ([], (c :: cs).drop sep.length)
      else
        match findSplit sep cs with
        | some (a, b) => some (c :: a, b)
        | none => none

/-- Python `s.split(sep, 1)` on strings: `some (before, after)` at the
first occurrence of `sep`, `none` when `sep` does not occur (the `sep in
s` test). -/
def splitFirst (sep s : String) : Option (String × String) :=
  match findSplit sep.data s.data with
  | some (a, b) => some (⟨a⟩, ⟨b⟩)
  | none => none

/-- Title/artist derivation of `split_track` (splitter.py lines 82-90):
split on the first `" - "`, else on the first `" | "`, else
`track_name = track_title; artist = track_name` with no strip.  Returns
the pair `(track_name, artist)`. -/
def deriveMeta (trackTitle : String) : String × String :=
  match splitFirst " - " trackTitle with
  | some (a, b) => (pyStrip b, pyStrip a)
  | none =>
      match splitFirst " | " trackTitle with
      | some (a, b) => (pyStrip b, pyStrip a)
      | none => (trackTitle, trackTitle)

/-- The copy of the derivation inside `get_youtube_track` (splitter.py
lines 242-250), applied to the candidate title and textually duplicated
in the source. -/
def deriveMetaResolver (trackTitle : String) : String × String :=
  match splitFirst " - " trackTitle with
  | some (a, b) => (pyStrip b, pyStrip a)
  | none =>
      match splitFirst " | " trackTitle with
      | some (a, b) => (pyStrip b, pyStrip a)
      | none => (trackTitle, trackTitle)

/-- Output path built by `split_track` and `get_youtube_track`
(splitter.py lines 91 and 251): the output folder joined with the
stripped title followed by `.mp3`. -/
def outputFileFor (folder trackTitle : String) : String :=
  folder ++ "/" ++ pyStrip trackTitle ++ ".mp3"

/-- Truncation toward zero, Python `int()` applied to a float. -/
def truncQ (q : Rat) : Int := if 0 ≤ q then ⌊q⌋ else ⌈q⌉

/-- The four arguments of the ffmpeg crop filter, `crop=w:h:x:y`. -/
structure CropBox where
  w : Int
  h : Int
  x : Int
  y : Int
deriving DecidableEq, Repr

/-- The crop geometry computed by `crop_thumbnail` (splitter.py lines
135-184): the source branches on `ratio > 1` where `ratio` is
`width / height`.  The first branch keeps the full width with height
`9 * (width / 16)` and vertical offset `(height - new_height) / 2`; the
second keeps the full height with width `16 * (height / 9)` and
horizontal offset `(width - new_width) / 2`; every dimension passes
through `int()`. -/
def cropThumbnail (width height : Nat) : CropBox :=
  let ratio : Rat := (width : Rat) / (height : Rat)
  if ratio > 1 then
    let unit : Rat := (width : Rat) / 16
    let newHeight : Rat := 9 * unit
    let diff : Rat := ((height : Rat) - newHeight) / 2
    ⟨truncQ (width : Rat), truncQ newHeight, 0, truncQ diff⟩
  else
    let unit : Rat := (height : Rat) / 9
    let newWidth : Rat := 16 * unit
    let diff : Rat := ((width : Rat) - newWidth) / 2
    ⟨truncQ newWidth, truncQ (height : Rat), truncQ diff, 0⟩

/-- Modelled from the spec wording for the wide branch: target height
`9*(w/16)`, vertical offset `(h - target height)/2`, crop full width,
dimensions truncated. -/
def wideCropSpec (width height : Nat) : CropBox :=
  let th : Rat := 9 * ((width : Rat) / 16)
  ⟨(width : Int), truncQ th, 0, truncQ (((height : Rat) - th) / 2)⟩

/-- Modelled from the spec wording for the tall branch: target width
`16*(h/9)`, horizontal offset `(w - target width)/2`, crop full height,
dimensions truncated. -/
def tallCropSpec (width height : Nat) : CropBox :=
  let tw : Rat := 16 * ((height : Rat) / 9)
  ⟨truncQ tw, (height : Int), truncQ (((width : Rat) - tw) / 2), 0⟩

/-- State of one output directory: the filenames it contains, the lines
of `songs.txt` (`none` when the file does not exist), and whether the
cropped thumbnail `new_cover.jpeg` has been written. -/
structure FsState where
  files : List String
  ledger : Option (List String)
  thumbnailWritten : Bool
deriving DecidableEq, Repr

/-- Python `s.endswith(suf)`. -/
def pyEndsWith (suf s : String) : Bool := suf.data.isSuffixOf s.data

/-- Index of the last dot in a character list, if any. -/
def lastDotIdx (cs : List Char) : Option Nat :=
  match cs.reverse.findIdx? (fun c => c == '.') with
  | none => none
  | some j => some (cs.length - 1 - j)

/-- First component of `os.path.splitext` for a plain filename: drop the
extension that starts at the last dot, except that dots leading the
filename never begin an extension (`splitext` of `.mp3` leaves it
whole). -/
def splitextRoot (f : String) : String :=
  let cs := f.data
  let lead := (cs.takeWhile (fun c => c == '.')).length
  match lastDotIdx cs with
  | none => f
  | some i => if i < lead then f else ⟨cs.take i⟩

/-- The titles `check_tracks` seeds the ledger with: one per `.mp3` file
of the output directory, the filename without its extension.  Python
collects them in a set whose iteration order is arbitrary; the model
fixes one order and deduplicates, which determines the same set of
lines. -/
def seedTitles (files : List String) : List String :=
  ((files.filter (fun f => pyEndsWith ".mp3" f)).map splitextRoot).dedup

/-- Function `check_tracks` (splitter.py lines 281-326): seed `songs.txt`
from the `.mp3` files of the directory when it does not exist (only if
any were found), read it back stripping each line, return the input
tracks whose title is not among the read titles, and append those titles
to the file (creating it if needed). -/
def checkTracks (tracks : List Track) (s : FsState) : List Track × FsState :=
  let s1 :=
    match s.ledger with
    | some _ => s
    | none =>
        let existing := seedTitles s.files
        if existing = [] then s else { s with ledger := some existing }
  let processed := (s1.ledger.getD []).map pyStrip
  let newTracks := tracks.filter fun t => !decide (t.title ∈ processed)
  let s2 :=
    if newTracks = [] then s1
    else { s1 with ledger := some (s1.ledger.getD [] ++ newTracks.map Track.title) }
  (newTracks, s2)

/-- One entry of the external search result list: only its title matters
to the scoring logic. -/
structure SearchResult where
  title : String
deriving DecidableEq, Repr

/-- Outcome of `get_youtube_track`: an `IndexError` escaping the loop,
the bare `return` (decline), or the produced file path. -/
inductive ResolverOutcome where
  | indexError : ResolverOutcome
  | declined : ResolverOutcome
  | resolved : String → ResolverOutcome
deriving DecidableEq, Repr

/-- Maximum of a list of rationals (`0` for the empty list, which never
arises: the scored list always has five entries). -/
def maxQ : List Rat → Rat
  | [] => 0
  | [x] => x
  | x :: y :: xs => max x (maxQ (y :: xs))

/-- Function `get_youtube_track` (splitter.py lines 220-233): score
`results[i]` for `i in range(5)` with the similarity function (the
`ratio` method of `difflib.SequenceMatcher`, an external collaborator
abstracted as `sim`, a normalized ratio modelled over `Rat`), sort the
pairs by score ascending (`sorted` in Python is the stable sort, which is
unique as a function, here `List.insertionSort`), take the final —
maximal — pair, and return `None` when its score is below `0.6`;
otherwise the candidate is fetched and the produced file is the output
folder joined with the stripped candidate title and `.mp3`.  The
subscript `results[i]` raises `IndexError` when fewer than five results
exist. -/
def getYoutubeTrack (sim : String → String → Rat) (results : List SearchResult)
    (track : Track) (outputFolder : String) : ResolverOutcome :=
  if results.length < 5 then .indexError
  else
    let arr := (results.take 5).map fun r => (r, sim r.title track.title)
    let sortedArr := arr.insertionSort fun p q => p.2 ≤ q.2
    match sortedArr.getLast? with
    | none => .indexError
    | some best =>
        if best.2 < 3 / 5 then .declined
        else .resolved (outputFileFor outputFolder best.1.title)

instance : IsTotal (SearchResult × Rat) (fun p q => p.2 ≤ q.2) :=
  ⟨fun a b => le_total a.2 b.2⟩

instance : IsTrans (SearchResult × Rat) (fun p q => p.2 ≤ q.2) :=
  ⟨fun _ _ _ h1 h2 => le_trans h1 h2⟩

/-- Five concrete search results for the boundary checks. -/
def fiveResults : List SearchResult := [⟨"R1"⟩, ⟨"R2"⟩, ⟨"R3"⟩, ⟨"R4"⟩, ⟨"R5"⟩]

/-- Call `subprocess.run(command, capture_output=True)` without
`check=True` (splitter.py line 114): per the Python documentation it
never raises `CalledProcessError` on a non-zero exit status, so the call
succeeds whatever `exitCode` is; the `except` clauses of `split_track`
are unreachable. -/
def runNoCheck (_exitCode : Int) : Except String Unit :=
  Except.ok ()

/-- Function `split_track` (splitter.py lines 64-120) as a function of
the ffmpeg exit status: the returned value (`Except.ok` models a normal
return, `Except.error` a raised exception) paired with whether the
output file exists afterwards (ffmpeg only produces it on a zero exit
status). -/
def splitTrackRun (track : Track) (outputFolder : String) (exitCode : Int) :
    Except String String × Bool :=
  match runNoCheck exitCode with
  | Except.ok _ => (Except.ok (outputFileFor outputFolder track.title), exitCode == 0)
  | Except.error e =>
      (Except.error ("Failed to split track: " ++ e), false)

/-- Function `split` (splitter.py lines 186-217): the pre-flight
`check_ffmpeg` probe (its result is the parameter `ffmpegAvailable`),
then merge, ledger filter, one thumbnail crop (which writes
`new_cover.jpeg`), then per remaining track the resolver (abstracted as
`resolve`, returning the produced path or `none` for a decline) with
`split_track` as the fallback.  Returns the produced paths and the final
directory state. -/
def splitRun (ffmpegAvailable : Bool) (resolve : Track → Option String)
    (tracks : List Track) (outputFolder : String) (s : FsState) :
    Except String (List String) × FsState :=
  if !ffmpegAvailable then
    (Except.error "ffmpeg is not available on the system", s)
  else
    let merged := mergeDuplicateTracks tracks
    let filtered := checkTracks merged s
    let s2 := { filtered.2 with thumbnailWritten := true }
    let step := fun (acc : List String × FsState) (t : Track) =>
      match resolve t with
      | some p => (acc.1 ++ [p], acc.2)
      | none =>
          (acc.1 ++ [outputFileFor outputFolder t.title],
            { acc.2 with files := acc.2.files ++ [pyStrip t.title ++ ".mp3"] })
    let looped := filtered.1.foldl step ([], s2)
    (Except.ok looped.1, looped.2)

/-! ## Lemmas about the merge phase -/

theorem mergeDups_concat (ts : List Track) (t : Track) :
    mergeDups (ts ++ [t]) = mergeStep (mergeDups ts) t := by
  simp [mergeDups, List.foldl_append]

theorem mergeStep_titles (m : List Track) (t : Track) :
    (mergeStep m t).map Track.title =
      if t.title ∈ m.map Track.title then m.map Track.title
      else m.map Track.title ++ [t.title] := by
  unfold mergeStep
  split
  · simp only [List.map_map]
    refine List.map_congr_left ?_
    intro u _
    by_cases h : u.title = t.title <;> simp [h]
  · simp

theorem mem_mergeStep_titles (m : List Track) (t : Track) (x : String) :
    x ∈ (mergeStep m t).map Track.title ↔ x ∈ m.map Track.title ∨ x = t.title := by
  rw [mergeStep_titles]
  split
  · rename_i h
    constructor
    · exact fun hx => Or.inl hx
    · rintro (hx | rfl)
      · exact hx
      · exact h
  · simp

theorem mem_mergeDups_titles (ts : List Track) (x : String) :
    x ∈ (mergeDups ts).map Track.title ↔ x ∈ ts.map Track.title := by
  induction ts using List.reverseRecOn with
  | nil => simp [mergeDups]
  | append_singleton ts t ih =>
      rw [mergeDups_concat, mem_mergeStep_titles]
      simp [ih]

theorem firstSeen_cons (seen : List String) (y : String) (xs : List String) :
    firstSeen seen (y :: xs) =
      if y ∈ seen then firstSeen seen xs else y :: firstSeen (y :: seen) xs := rfl

theorem firstSeen_concat (xs : List String) (x : String) :
    ∀ seen, firstSeen seen (xs ++ [x]) =
      firstSeen seen xs ++ (if x ∈ seen ∨ x ∈ xs then [] else [x]) := by
  induction xs with
  | nil => intro seen; by_cases h : x ∈ seen <;> simp [firstSeen, h]
  | cons y ys ih =>
      intro seen
      rw [List.cons_append, firstSeen_cons, firstSeen_cons]
      by_cases hy : y ∈ seen
      · rw [if_pos hy, if_pos hy, ih seen]
        have hc : (x ∈ seen ∨ x ∈ y :: ys) ↔ (x ∈ seen ∨ x ∈ ys) := by
          simp only [List.mem_cons]
          constructor
          · rintro (h | rfl | h)
            exacts [Or.inl h, Or.inl hy, Or.inr h]
          · rintro (h | h)
            exacts [Or.inl h, Or.inr (Or.inr h)]
        simp only [hc]
      · rw [if_neg hy, if_neg hy, ih (y :: seen), List.cons_append]
        have hc : (x ∈ seen ∨ x ∈ y :: ys) ↔ (x ∈ y :: seen ∨ x ∈ ys) := by
          simp only [List.mem_cons]
          tauto
        simp only [hc]

theorem mergeDups_titles (ts : List Track) :
    (mergeDups ts).map Track.title = firstSeen [] (ts.map Track.title) := by
  induction ts using List.reverseRecOn with
  | nil => simp [mergeDups, firstSeen]
  | append_singleton ts t ih =>
      rw [mergeDups_concat, mergeStep_titles, List.map_append, List.map_singleton,
        firstSeen_concat, ← ih]
      by_cases h : t.title ∈ (mergeDups ts).map Track.title
      · rw [if_pos h, if_pos, List.append_nil]
        exact Or.inr ((mem_mergeDups_titles ts t.title).mp h)
      · rw [if_neg h, if_neg]
        rintro (hc | hc)
        · simp at hc
        · exact h ((mem_mergeDups_titles ts t.title).mpr hc)

theorem occs_concat (ts : List Track) (t : Track) (τ : String) :
    occs (ts ++ [t]) τ = occs ts τ ++ (if t.title = τ then [t] else []) := by
  by_cases h : t.title = τ <;> simp [occs, List.filter_append, h]

theorem occs_ne_nil_of_mem_titles (ts : List Track) (τ : String)
    (h : τ ∈ ts.map Track.title) : occs ts τ ≠ [] := by
  rcases List.mem_map.mp h with ⟨t, ht, rfl⟩
  intro hnil
  have : t ∈ occs ts t.title := by simp [occs, ht]
  rw [hnil] at this
  exact List.not_mem_nil t this

theorem occs_eq_nil_of_not_mem_titles (ts : List Track) (τ : String)
    (h : τ ∉ ts.map Track.title) : occs ts τ = [] := by
  rw [occs, List.filter_eq_nil_iff]
  intro t ht
  simp only [beq_iff_eq]
  intro hEq
  exact h (List.mem_map.mpr ⟨t, ht, hEq⟩)

theorem minStart_concat (l : List Track) (t : Track) :
    minStart (l ++ [t]) = if l = [] then t.start else min (minStart l) t.start := by
  cases l with
  | nil => rfl
  | cons u us => simp [minStart, List.foldl_append]

theorem lastDur_concat (l : List Track) (t : Track) : lastDur (l ++ [t]) = t.duration := by
  induction l with
  | nil => rfl
  | cons u us ih =>
      cases us with
      | nil => rfl
      | cons v vs => simpa [lastDur] using ih

theorem mergeDups_start_duration (ts : List Track) :
    ∀ m ∈ mergeDups ts, m.start = minStart (occs ts m.title) ∧
      m.duration = lastDur (occs ts m.title) := by
  induction ts using List.reverseRecOn with
  | nil => simp [mergeDups]
  | append_singleton ts t ih =>
      intro m hm
      rw [mergeDups_concat] at hm
      unfold mergeStep at hm
      split at hm
      · rename_i hmem
        rcases List.mem_map.mp hm with ⟨u, hu, hmu⟩
        by_cases h : u.title = t.title
        · rw [if_pos h] at hmu
          subst hmu
          have hne : occs ts t.title ≠ [] :=
            occs_ne_nil_of_mem_titles ts t.title ((mem_mergeDups_titles ts t.title).mp hmem)
          have hocc : occs (ts ++ [t]) t.title = occs ts t.title ++ [t] := by
            rw [occs_concat, if_pos rfl]
          show min u.start t.start = minStart (occs (ts ++ [t]) t.title) ∧
            t.duration = lastDur (occs (ts ++ [t]) t.title)
          rw [hocc, minStart_concat, if_neg hne, lastDur_concat]
          refine ⟨?_, rfl⟩
          have h1 := (ih u hu).1
          rw [h] at h1
          rw [← h1]
        · rw [if_neg h] at hmu
          subst hmu
          have hne : ¬ t.title = u.title := fun hEq => h hEq.symm
          simp only [occs_concat, if_neg hne, List.append_nil]
          exact ih u hu
      · rename_i hmem
        rcases List.mem_append.mp hm with hm' | hm'
        · have hmt : m.title ∈ (mergeDups ts).map Track.title :=
            List.mem_map_of_mem Track.title hm'
          have hne : ¬ t.title = m.title := by
            intro hEq
            exact hmem (hEq ▸ hmt)
          simp only [occs_concat, if_neg hne, List.append_nil]
          exact ih m hm'
        · have hmt : m = t := List.mem_singleton.mp hm'
          subst hmt
          have hnil : occs ts m.title = [] := by
            refine occs_eq_nil_of_not_mem_titles ts m.title ?_
            intro hc
            exact hmem ((mem_mergeDups_titles ts m.title).mpr hc)
          simp [occs_concat, hnil, minStart, lastDur]

theorem mergeDups_nodup (ts : List Track) (h : (ts.map Track.title).Nodup) :
    mergeDups ts = ts := by
  induction ts using List.reverseRecOn with
  | nil => rfl
  | append_singleton ts t ih =>
      rw [List.map_append, List.nodup_append] at h
      obtain ⟨h1, _, hdisj⟩ := h
      have ht : t.title ∉ ts.map Track.title := by
        intro hc
        exact hdisj hc (by simp)
      rw [mergeDups_concat, ih h1]
      unfold mergeStep
      rw [if_neg ht]

/-- C1: merging duplicates groups tracks by exact title, producing one
track per distinct title (in first-seen order) whose start is the minimum
start over all occurrences of that title and whose duration is the
duration of the last-encountered occurrence; a list with no duplicate
titles is returned unchanged. -/
theorem C1_merge_duplicates (ts : List Track) :
    ((mergeDups ts).map Track.title = firstSeen [] (ts.map Track.title)) ∧
    (∀ m ∈ mergeDups ts, m.start = minStart (occs ts m.title) ∧
      m.duration = lastDur (occs ts m.title)) ∧
    ((ts.map Track.title).Nodup → mergeDups ts = ts) :=
  ⟨mergeDups_titles ts, mergeDups_start_duration ts, fun h => mergeDups_nodup ts h⟩

theorem C1_merge_duplicates_witness :
    mergeDups [⟨"Song 1", 0, 60⟩, ⟨"Song 2", 60, 60⟩] =
      [⟨"Song 1", 0, 60⟩, ⟨"Song 2", 60, 60⟩] :=
  (C1_merge_duplicates _).2.2 (by decide)

/-- C9: the title normalization of `merge_duplicate_tracks` (strip a
leading run of digits, an optional period and optional whitespace) is
applied to every output title after the merge phase; a title `01. Track`
normalizes to `Track`, while `AC/DC - Song` is unchanged because it has
no leading-digit prefix. -/
theorem C9_normalize_after_merge :
    (∀ ts : List Track, (mergeDuplicateTracks ts).map Track.title =
      ((mergeDups ts).map Track.title).map stripLeadingOrdinal) ∧
    stripLeadingOrdinal "01. Track" = "Track" ∧
    stripLeadingOrdinal "AC/DC - Song" = "AC/DC - Song" ∧
    mergeDuplicateTracks [⟨"01. Track", 0, 60⟩] = [⟨"Track", 0, 60⟩] ∧
    mergeDuplicateTracks [⟨"AC/DC - Song", 5, 30⟩] = [⟨"AC/DC - Song", 5, 30⟩] := by
  refine ⟨fun ts => ?_, by decide, by decide, by decide, by decide⟩
  simp [mergeDuplicateTracks, List.map_map, Function.comp]

/-! ## Title/artist derivation -/

/-- C4 counterexample: for the separator-free title `" Solo "` the code
copies the title verbatim into both metadata fields, while the claim
demands the trimmed title `"Solo"`. -/
theorem C4_derivation_counterexample :
    deriveMeta " Solo " = (" Solo ", " Solo ") ∧
    pyStrip " Solo " = "Solo" ∧
    deriveMeta " Solo " ≠ (pyStrip " Solo ", pyStrip " Solo ") := by
  refine ⟨by decide, by decide, ?_⟩
  decide

/-- C4 (amended): when `" - "` occurs, artist is the trimmed text before
its first occurrence and the display title the trimmed text after;
otherwise the same split applies to the first `" | "`; otherwise artist
and title are the full title unchanged (not trimmed).  The resolver
applies the identical derivation to the candidate title, and the output
filename is always built from the pre-split stripped original title with
`.mp3` appended, never from the derived display title. -/
theorem C4_derivation_amended :
    (∀ t a b, splitFirst " - " t = some (a, b) → deriveMeta t = (pyStrip b, pyStrip a)) ∧
    (∀ t a b, splitFirst " - " t = none → splitFirst " | " t = some (a, b) →
      deriveMeta t = (pyStrip b, pyStrip a)) ∧
    (∀ t, splitFirst " - " t = none → splitFirst " | " t = none →
      deriveMeta t = (t, t)) ∧
    (∀ t, deriveMetaResolver t = deriveMeta t) ∧
    (∀ (track : Track) (folder : String) (exitCode : Int),
      (splitTrackRun track folder exitCode).1 =
        Except.ok (folder ++ "/" ++ pyStrip track.title ++ ".mp3")) ∧
    ((splitTrackRun ⟨"Artist - Title", 0, 30⟩ "out" 0).1 =
      Except.ok "out/Artist - Title.mp3") ∧
    ((deriveMeta "Artist - Title").1 = "Title") := by
  refine ⟨?_, ?_, ?_, ?_, ?_, by rfl, by decide⟩
  · intro t a b h
    simp [deriveMeta, h]
  · intro t a b h1 h2
    simp [deriveMeta, h1, h2]
  · intro t h1 h2
    simp [deriveMeta, h1, h2]
  · intro t
    rfl
  · intro track folder exitCode
    rfl

theorem C4_derivation_amended_witness :
    deriveMeta "Artist - Title" = ("Title", "Artist") := by
  have h := C4_derivation_amended.1 "Artist - Title" "Artist" "Title" (by decide)
  rw [h]
  decide

/-! ## Thumbnail cropper -/

theorem truncQ_natCast (n : Nat) : truncQ (n : Rat) = (n : Int) := by
  simp [truncQ]

/-- C3 counterexample: a 1200×800 image has the ratio `3/2 ≤ 16/9`, so
the claim mandates the tall branch, but the code (which branches on
`ratio > 1`) produces exactly the wide-branch box — and the two branches
disagree there. -/
theorem C3_crop_counterexample :
    cropThumbnail 1200 800 = wideCropSpec 1200 800 ∧
    wideCropSpec 1200 800 ≠ tallCropSpec 1200 800 ∧
    ¬((1200 : Rat) / 800 > 16 / 9) := by
  have h1 : cropThumbnail 1200 800 = ⟨1200, 675, 0, 62⟩ := by
    rw [cropThumbnail, if_pos (by norm_num)]
    simp only [truncQ]
    norm_num
  have h2 : wideCropSpec 1200 800 = ⟨1200, 675, 0, 62⟩ := by
    rw [wideCropSpec]
    simp only [truncQ]
    norm_num
  have h3 : tallCropSpec 1200 800 = ⟨1422, 800, -111, 0⟩ := by
    rw [tallCropSpec]
    simp only [truncQ]
    norm_num [Int.ceil_neg]
  refine ⟨h1.trans h2.symm, ?_, by norm_num⟩
  rw [h2, h3]
  decide

/-- C3 (amended): the wide branch (full width, height `9*(w/16)`,
centered vertical offset) is taken exactly when `w/h > 1` — not when
`w/h > 16/9` — and otherwise the tall branch (full height, width
`16*(h/9)`, centered horizontal offset) is taken; all dimensions are
truncated to integers before use. -/
theorem C3_crop_amended (width height : Nat) (_hh : 0 < height) :
    cropThumbnail width height =
      if (width : Rat) / (height : Rat) > 1 then wideCropSpec width height
      else tallCropSpec width height := by
  rw [cropThumbnail]
  split
  · rw [wideCropSpec, truncQ_natCast]
  · rw [tallCropSpec, truncQ_natCast]

theorem C3_crop_amended_witness :
    cropThumbnail 800 1200 = tallCropSpec 800 1200 := by
  have h := C3_crop_amended 800 1200 (by decide)
  rw [h, if_neg (by norm_num)]

/-! ## Processed-title ledger -/

/-- C2: with an existing ledger, `check_tracks` returns exactly the
input tracks whose title is absent from the stripped ledger title set,
in input order, and appends exactly the returned titles to the ledger
(touching nothing else); on an initially empty directory a first call
with two new tracks returns both and leaves exactly those two titles in
the ledger, and a second identical call returns the empty list. -/
theorem C2_ledger_filter_append (ts : List Track) (s : FsState) (L : List String)
    (h : s.ledger = some L) :
    ((checkTracks ts s).1 =
      ts.filter (fun t => !decide (t.title ∈ L.map pyStrip))) ∧
    ((checkTracks ts s).2.ledger =
      some (L ++ ((checkTracks ts s).1).map Track.title)) ∧
    ((checkTracks ts s).2.files = s.files) ∧
    (checkTracks [⟨"Song A", 0, 30⟩, ⟨"Song B", 30, 45⟩] ⟨[], none, false⟩ =
      ([⟨"Song A", 0, 30⟩, ⟨"Song B", 30, 45⟩],
        ⟨[], some ["Song A", "Song B"], false⟩)) ∧
    ((checkTracks [⟨"Song A", 0, 30⟩, ⟨"Song B", 30, 45⟩]
        ⟨[], some ["Song A", "Song B"], false⟩).1 = []) := by
  refine ⟨by simp [checkTracks, h], ?_, ?_, by decide, by decide⟩
  · simp only [checkTracks, h]
    split <;> simp_all
  · simp only [checkTracks, h]
    split <;> simp_all

theorem C2_ledger_filter_append_witness :
    (checkTracks [⟨"Song A", 0, 30⟩, ⟨"Song B", 30, 45⟩]
        ⟨[], some ["Song A", "Song B"], false⟩).1 = [] :=
  (C2_ledger_filter_append [] ⟨[], some [], false⟩ [] rfl).2.2.2.2

/-- C7: with no ledger record, `check_tracks` derives one title per
`.mp3` file of the directory (the filename without its extension), uses
those titles as the set to filter against, and persists them as the
initial ledger content when any exist; a directory already holding
`Old Song.mp3` yields a ledger containing `Old Song`, and an input track
titled `Old Song` is excluded from the returned list. -/
theorem C7_ledger_seeding (ts : List Track) (s : FsState)
    (h : s.ledger = none) :
    ((checkTracks ts s).1 =
      ts.filter (fun t => !decide (t.title ∈ (seedTitles s.files).map pyStrip))) ∧
    (seedTitles s.files ≠ [] →
      (checkTracks ts s).2.ledger =
        some (seedTitles s.files ++ ((checkTracks ts s).1).map Track.title)) ∧
    (checkTracks [⟨"Old Song", 0, 60⟩, ⟨"New Song", 60, 60⟩]
        ⟨["Old Song.mp3"], none, false⟩ =
      ([⟨"New Song", 60, 60⟩],
        ⟨["Old Song.mp3"], some ["Old Song", "New Song"], false⟩)) := by
  refine ⟨?_, ?_, by decide⟩
  · simp only [checkTracks, h]
    split <;> simp_all
  · intro hne
    simp only [checkTracks, h]
    rw [if_neg hne]
    split <;> simp_all

theorem C7_ledger_seeding_witness :
    checkTracks [⟨"Old Song", 0, 60⟩, ⟨"New Song", 60, 60⟩]
        ⟨["Old Song.mp3"], none, false⟩ =
      ([⟨"New Song", 60, 60⟩],
        ⟨["Old Song.mp3"], some ["Old Song", "New Song"], false⟩) :=
  (C7_ledger_seeding [] ⟨[], none, false⟩ rfl).2.2

/-! ## Fallback resolver -/

theorem le_maxQ : ∀ (l : List Rat), ∀ x ∈ l, x ≤ maxQ l := by
  intro l
  induction l with
  | nil => simp
  | cons a t ih =>
      cases t with
      | nil =>
          intro x hx
          rw [List.mem_singleton] at hx
          subst hx
          exact le_of_eq rfl
      | cons b u =>
          intro x hx
          rcases List.mem_cons.mp hx with rfl | hx
          · exact le_max_left _ _
          · exact le_trans (ih x hx) (le_max_right _ _)

theorem maxQ_mem : ∀ (l : List Rat), l ≠ [] → maxQ l ∈ l := by
  intro l
  induction l with
  | nil => intro h; exact absurd rfl h
  | cons a t ih =>
      intro _
      cases t with
      | nil => exact List.mem_singleton.mpr rfl
      | cons b u =>
          rcases max_choice a (maxQ (b :: u)) with h | h
          · rw [show maxQ (a :: b :: u) = max a (maxQ (b :: u)) from rfl, h]
            exact List.mem_cons_self _ _
          · rw [show maxQ (a :: b :: u) = max a (maxQ (b :: u)) from rfl, h]
            exact List.mem_cons_of_mem _ (ih (by simp))

theorem sorted_getLast_max :
    ∀ (l : List (SearchResult × Rat)), l.Sorted (fun p q => p.2 ≤ q.2) →
      ∀ b, l.getLast? = some b → ∀ x ∈ l, x.2 ≤ b.2 := by
  intro l
  induction l with
  | nil => intro _ b hb; cases hb
  | cons a t ih =>
      intro hs b hb x hx
      cases t with
      | nil =>
          rw [List.getLast?_singleton] at hb
          rw [List.mem_singleton] at hx
          subst hx
          rw [Option.some.injEq] at hb
          subst hb
          exact le_of_eq rfl
      | cons c u =>
          rw [List.getLast?_cons_cons] at hb
          have hcons := List.sorted_cons.mp hs
          rcases List.mem_cons.mp hx with rfl | hx
          · exact hcons.1 b (List.mem_of_mem_getLast? hb)
          · exact ih hcons.2 b hb x hx

/-- C5: with at least five search results the resolver declines exactly
when the maximum of the five similarity scores is below `0.6`; a best
score of exactly `0.6` is accepted (resolved) and one of `0.59` is
declined. -/
theorem C5_resolver_threshold (sim : String → String → Rat)
    (results : List SearchResult) (track : Track) (outputFolder : String)
    (h : 5 ≤ results.length) :
    (getYoutubeTrack sim results track outputFolder = .declined ↔
      maxQ ((results.take 5).map fun r => sim r.title track.title) < 3 / 5) ∧
    (getYoutubeTrack (fun _ _ => 3 / 5) fiveResults ⟨"T", 0, 0⟩ "out" =
      .resolved (outputFileFor "out" "R5")) ∧
    (getYoutubeTrack (fun _ _ => 59 / 100) fiveResults ⟨"T", 0, 0⟩ "out" =
      .declined) := by
  have hnotlt : ¬ results.length < 5 := by omega
  refine ⟨?_, ?_, ?_⟩
  · simp only [getYoutubeTrack, if_neg hnotlt]
    set arr := (results.take 5).map (fun r => (r, sim r.title track.title)) with harr
    have hne : arr ≠ [] := by
      apply List.ne_nil_of_length_pos
      rw [harr, List.length_map, List.length_take]
      omega
    have hperm := List.perm_insertionSort (fun p q : SearchResult × Rat => p.2 ≤ q.2) arr
    have hsorted := List.sorted_insertionSort (fun p q : SearchResult × Rat => p.2 ≤ q.2) arr
    set sortedArr := arr.insertionSort (fun p q => p.2 ≤ q.2) with hsa
    have hsne : sortedArr ≠ [] := by
      intro hc
      rw [hc] at hperm
      exact hne (hperm.symm.eq_nil)
    obtain ⟨b, hb⟩ : ∃ b, sortedArr.getLast? = some b := by
      cases hgl : sortedArr.getLast? with
      | none => exact absurd (List.getLast?_eq_none_iff.mp hgl) hsne
      | some b => exact ⟨b, rfl⟩
    have hmap : (results.take 5).map (fun r => sim r.title track.title) =
        arr.map Prod.snd := by
      rw [harr, List.map_map]
      rfl
    have hb2 : b.2 = maxQ (arr.map Prod.snd) := by
      apply le_antisymm
      · have hbm : b ∈ sortedArr := List.mem_of_mem_getLast? hb
        exact le_maxQ _ _ (List.mem_map_of_mem Prod.snd (hperm.mem_iff.mp hbm))
      · have hmne : arr.map Prod.snd ≠ [] := by
          intro hc
          exact hne (List.map_eq_nil_iff.mp hc)
        rcases List.mem_map.mp (maxQ_mem _ hmne) with ⟨p, hp, hps⟩
        have hpin : p ∈ sortedArr := hperm.mem_iff.mpr hp
        exact hps ▸ sorted_getLast_max sortedArr hsorted b hb p hpin
    rw [hmap, ← hb2]
    simp only [hb]
    by_cases hlt : b.2 < 3 / 5
    · rw [if_pos hlt]
      simp [hlt]
    · rw [if_neg hlt]
      simp [hlt]
  · norm_num [getYoutubeTrack, fiveResults, List.insertionSort, List.orderedInsert]
  · norm_num [getYoutubeTrack, fiveResults, List.insertionSort, List.orderedInsert]

theorem C5_resolver_threshold_witness :
    getYoutubeTrack (fun _ _ => 59 / 100) fiveResults ⟨"T", 0, 0⟩ "out" =
      .declined :=
  (C5_resolver_threshold (fun _ _ => 59 / 100) fiveResults ⟨"T", 0, 0⟩ "out"
    (by decide)).2.2

/-- C10: the resolver unconditionally indexes the first five entries of
the result list, so with fewer than five search results it fails with an
out-of-range index error instead of declining or scoring only the
available results. -/
theorem C10_index_out_of_range (sim : String → String → Rat)
    (results : List SearchResult) (track : Track) (outputFolder : String)
    (h : results.length < 5) :
    getYoutubeTrack sim results track outputFolder = .indexError := by
  simp only [getYoutubeTrack, if_pos h]

theorem C10_index_out_of_range_witness :
    getYoutubeTrack (fun _ _ => 1) [⟨"only"⟩] ⟨"T", 0, 0⟩ "out" =
      .indexError :=
  C10_index_out_of_range (fun _ _ => 1) [⟨"only"⟩] ⟨"T", 0, 0⟩ "out" (by decide)

/-! ## Segment extractor and orchestrator -/

/-- C6 is violated by the code: `split_track` never raises on a non-zero
tool exit — it returns the output path unconditionally — and on exit
status `1` that path names a file that does not exist (second component
`false`). -/
theorem C6_extraction_never_raises :
    (∀ (track : Track) (folder : String) (exitCode : Int),
      (splitTrackRun track folder exitCode).1 =
        Except.ok (outputFileFor folder track.title)) ∧
    (splitTrackRun ⟨"Song", 0, 30⟩ "out" 1 =
      (Except.ok (outputFileFor "out" "Song"), false)) :=
  ⟨fun _ _ _ => rfl, rfl⟩

/-- C8: when the transcoding tool is unavailable, `split` fails with the
pre-flight error before touching the filesystem: the state — ledger,
directory contents and thumbnail — is returned unchanged and no track is
processed. -/
theorem C8_fail_fast (resolve : Track → Option String) (tracks : List Track)
    (outputFolder : String) (s : FsState) :
    splitRun false resolve tracks outputFolder s =
      (Except.error "ffmpeg is not available on the system", s) ∧
    (splitRun false resolve tracks outputFolder s).2.ledger = s.ledger ∧
    (splitRun false resolve tracks outputFolder s).2.files = s.files ∧
    (splitRun false resolve tracks outputFolder s).2.thumbnailWritten =
      s.thumbnailWritten :=
  ⟨rfl, rfl, rfl, rfl⟩

end MixSplitter
